import Mathlib

/-!
Verification development for the `tram` transition-manifold library.

The Python sources (`tram/transition_manifold.py`, `tram/manifold_learning.py`)
are shallowly embedded below.  Real numbers are modelled by `ℚ` (exact
arithmetic); transcendental or data-dependent collaborators that the code only
calls through an interface — the exponential `np.exp`, the power `x ** alpha`,
the fitted kernel-density estimator, the quadrature routine `dblquad`, the
feature sampler of `sklearn`, the iterative eigensolver `eigsh`, and numpy's
global random generator — are kept as explicit function parameters, so every
theorem quantifies over them.  Matrices are functions `Fin n → Fin n → ℚ` and
point clouds are `Fin M → α` (equal-size bursts) or `List α` (variable-size
trajectory clouds).
-/

namespace Tram

/-! ## `_reshape` (transition_manifold.py, lines 298-317)

`_reshape(X) = X.swapaxes(0,1).reshape(n_startpoints * M, dim)`: the row `r` of
the flattened array is `X[r % n, r / n]` (C-order flattening of the swapped
axes).  The burst builders then slice the flat array as `X[i::npoints, :]`. -/

def reshapeTM {α : Type} {n M : ℕ} (X : Fin n → Fin M → α) (r : Fin (M * n)) : α :=
  have hn : 0 < n := by
    rcases Nat.eq_zero_or_pos n with h0 | h0
    · have : (r : ℕ) < 0 := by simpa [h0] using r.isLt
      exact absurd this (Nat.not_lt_zero _)
    · exact h0
  X ⟨(r : ℕ) % n, Nat.mod_lt _ hn⟩ ⟨(r : ℕ) / n, (Nat.div_lt_iff_lt_mul hn).mpr r.isLt⟩

/-- Index bound for the strided slice `X[i::npoints]` of the flattened array. -/
theorem slice_index_lt {n M : ℕ} (i : Fin n) (t : Fin M) : (i : ℕ) + (t : ℕ) * n < M * n :=
  calc (i : ℕ) + (t : ℕ) * n < n + (t : ℕ) * n := by
        exact Nat.add_lt_add_right i.isLt _
    _ = ((t : ℕ) + 1) * n := by ring
    _ ≤ M * n := Nat.mul_le_mul_right n t.isLt

/-- The `t`-th row of the strided slice `X[i::npoints, :]` of the reshaped
array, as used by `KernelBurstTransitionManifold.fit` and
`L2BurstTransitionManifold.fit`. -/
def sliceTM {α : Type} {n M : ℕ} (X : Fin n → Fin M → α) (i : Fin n) (t : Fin M) : α :=
  reshapeTM X ⟨(i : ℕ) + (t : ℕ) * n, slice_index_lt i t⟩

/-! ## Kernel sums -/

/-- Full pairwise kernel sum `np.sum(kernel.evaluate(xs, ys))` over two
equal-indexed clouds. -/
def kernelSumF {α : Type} {m₁ m₂ : ℕ} (k : α → α → ℚ) (xs : Fin m₁ → α) (ys : Fin m₂ → α) : ℚ :=
  ∑ s, ∑ t, k (xs s) (ys t)

/-- Full pairwise kernel sum over two list clouds (trajectory variant, clouds
of possibly different sizes). -/
def kernelSumL {α : Type} (k : α → α → ℚ) (xs ys : List α) : ℚ :=
  (xs.map (fun x => (ys.map (fun y => k x y)).sum)).sum

/-! ## `KernelBurstTransitionManifold.fit` (transition_manifold.py, lines 40-58)

`dXX[i] = np.sum(kernel.evaluate(X[i::npoints], X[i::npoints]))`;
`distMat[i,j] = (dXX[i] + dXX[j] - 2*np.sum(GXY)) / M**2` for `j < i`, zero
otherwise; finally `distMat = distMat + distMat.T`. -/

def dXXburst {α : Type} {n M : ℕ} (k : α → α → ℚ) (X : Fin n → Fin M → α) (i : Fin n) : ℚ :=
  kernelSumF k (sliceTM X i) (sliceTM X i)

def distMatPreBurst {α : Type} {n M : ℕ} (k : α → α → ℚ) (X : Fin n → Fin M → α)
    (i j : Fin n) : ℚ :=
  if (j : ℕ) < (i : ℕ) then
    (dXXburst k X i + dXXburst k X j - 2 * kernelSumF k (sliceTM X i) (sliceTM X j)) / (M : ℚ) ^ 2
  else 0

def distMatBurst {α : Type} {n M : ℕ} (k : α → α → ℚ) (X : Fin n → Fin M → α)
    (i j : Fin n) : ℚ :=
  distMatPreBurst k X i j + distMatPreBurst k X j i

/-! ## `KernelTrajTransitionManifold.computeRC` (transition_manifold.py, lines 98-114)

Clouds are lists of trajectory points of varying sizes; the code uses each
cloud's own size: `distMat[i,j] = dXX[i]/nᵢ² + dXX[j]/nⱼ² - 2*sum(GXY)/(nᵢ*nⱼ)`
for `j < i`, then `distMat = distMat + distMat.T`. -/

def dXXtraj {α : Type} {n : ℕ} (k : α → α → ℚ) (c : Fin n → List α) (i : Fin n) : ℚ :=
  kernelSumL k (c i) (c i)

def distMatPreTraj {α : Type} {n : ℕ} (k : α → α → ℚ) (c : Fin n → List α)
    (i j : Fin n) : ℚ :=
  if (j : ℕ) < (i : ℕ) then
    dXXtraj k c i / ((c i).length : ℚ) ^ 2 + dXXtraj k c j / ((c j).length : ℚ) ^ 2
      - 2 * kernelSumL k (c i) (c j) / (((c i).length : ℚ) * ((c j).length : ℚ))
  else 0

def distMatTraj {α : Type} {n : ℕ} (k : α → α → ℚ) (c : Fin n → List α)
    (i j : Fin n) : ℚ :=
  distMatPreTraj k c i j + distMatPreTraj k c j i

/-! ## `L2BurstTransitionManifold` (transition_manifold.py, lines 177-209)

`L2distance` fits one Gaussian KDE per cloud and integrates
`(kde1(x,y) - kde2(x,y))**2 / rho(x,y)` over a rectangle with `dblquad`.  The
KDE fit and the quadrature are external numerical collaborators; they enter as
the parameters `kde` (fitted density of a cloud, evaluated at `(x,y)`) and
`quad` (the quadrature functional on integrands). -/

def L2distanceTM {α : Type} {M : ℕ} (quad : (ℚ → ℚ → ℚ) → ℚ)
    (kde : (Fin M → α) → ℚ → ℚ → ℚ) (rho : ℚ → ℚ → ℚ) (c₁ c₂ : Fin M → α) : ℚ :=
  quad (fun x y => (kde c₁ x y - kde c₂ x y) ^ 2 / rho x y)

/-- `L2BurstTransitionManifold.fit`: the full matrix is computed entry by
entry (`for j in range(npoints)`, lines 206-208), with no triangle mirroring. -/
def distMatL2 {α : Type} {n M : ℕ} (quad : (ℚ → ℚ → ℚ) → ℚ)
    (kde : (Fin M → α) → ℚ → ℚ → ℚ) (rho : ℚ → ℚ → ℚ) (X : Fin n → Fin M → α)
    (i j : Fin n) : ℚ :=
  L2distanceTM quad kde rho (sliceTM X i) (sliceTM X j)

/-! ## `diffusionMaps` (manifold_learning.py, lines 16-54)

The code, with `A` ranging over matrices `Fin n → Fin n → ℚ`:
* `kernelMat = np.exp(-distMat**2/epsi)` — applied unconditionally to every
  input; the exponential is the abstract parameter `e`;
* `rowsum = np.sum(kernelMat, axis=0)` — axis 0, i.e. **column** sums;
* `kernelMat = kernelMat / np.outer(rowsum**alpha, rowsum**alpha)` — the power
  `x ** alpha` is the abstract parameter `p`;
* `kernelMat = kernelMat / np.tile(sum(kernelMat,0), (npoints,1))` — the
  builtin `sum(·, 0)` is again the column-sum vector and `np.tile` repeats it
  as rows, so entry `(i,j)` is divided by column sum `j`;
* `weightMat = np.diag(sum(kernelMat,0))` — column sums of the matrix **after**
  the previous normalization. -/

def colsumF {n : ℕ} (A : Fin n → Fin n → ℚ) (j : Fin n) : ℚ := ∑ i, A i j

def rowsumF {n : ℕ} (A : Fin n → Fin n → ℚ) (i : Fin n) : ℚ := ∑ j, A i j

def dmKernelStep {n : ℕ} (e : ℚ → ℚ) (epsi : ℚ) (A : Fin n → Fin n → ℚ) :
    Fin n → Fin n → ℚ :=
  fun i j => e (-(A i j) ^ 2 / epsi)

def dmAlphaNorm {n : ℕ} (p : ℚ → ℚ) (K : Fin n → Fin n → ℚ) : Fin n → Fin n → ℚ :=
  fun i j => K i j / (p (colsumF K i) * p (colsumF K j))

def dmRowNorm {n : ℕ} (A : Fin n → Fin n → ℚ) : Fin n → Fin n → ℚ :=
  fun i j => A i j / colsumF A j

def dmWeight {n : ℕ} (A : Fin n → Fin n → ℚ) : Fin n → Fin n → ℚ :=
  fun i j => if i = j then colsumF (dmRowNorm A) i else 0

/-- The matrix pipeline of `diffusionMaps` up to (not including) the
eigensolver call: conversion, alpha-normalization, normalization by the
column-sum vector. -/
def dmPipeline {n : ℕ} (e : ℚ → ℚ) (p : ℚ → ℚ) (epsi : ℚ) (A : Fin n → Fin n → ℚ) :
    Fin n → Fin n → ℚ :=
  dmRowNorm (dmAlphaNorm p (dmKernelStep e epsi A))

/-! ## `evaluateDiffusionMaps` (manifold_learning.py, lines 56-79)

`return eigs[1].real[:, :n_components] * eigs[0].real[np.newaxis, :n_components]`.
Complex entries are modelled as pairs `(re, im) : ℚ × ℚ`; numpy's `[:k]` slice
is `List.take k`, which silently truncates when `k` exceeds the length. -/

def evalDM (eigvals : List (ℚ × ℚ)) (eigvecs : List (List (ℚ × ℚ))) (k : ℕ) :
    List (List ℚ) :=
  eigvecs.map (fun row => ((row.take k).zip (eigvals.take k)).map (fun z => z.1.1 * z.2.1))

inductive DMError : Type where
  | invalidArgument : DMError
  | notFitted : DMError
deriving DecidableEq

/-- Modelled from the spec: `evaluateDiffusionMaps(eigs, k)` as §4.2 of the
spec describes it — "fails with `InvalidArgument`" when `k` exceeds the number
of available components, and otherwise returns the scaled columns.  This is
the refinement target the code is compared against; the code itself
(`evalDM`) performs no such check. -/
def evalDMFromSpec (eigvals : List (ℚ × ℚ)) (eigvecs : List (List (ℚ × ℚ))) (k : ℕ) :
    Except DMError (List (List ℚ)) :=
  if k ≤ eigvals.length then .ok (evalDM eigvals eigvecs k) else .error .invalidArgument

/-- Entry `(i, j)` of a list-of-rows matrix, with default `0`. -/
def entryAt (m : List (List ℚ)) (i j : ℕ) : ℚ := (m.getD i []).getD j 0

/-! ## `LinearRandomFeatureManifold` (transition_manifold.py, lines 216-295)

State after `__init__`: `sampler = None`, `embedded = None`, `vec = None`.
`fit(X)`:
* `X.reshape(n_points * M, dim)` — C-order flattening, row `r = (r / M, r % M)`;
* `self.sampler.fit_transform(...)` — the sampler is fitted once on the whole
  flattened data set and maps each point to an `n_components`-vector; this is
  the abstract parameter `phiF`, a feature map depending on the full data set;
* `.reshape(n_points, M, n_components).sum(axis=1)` — per-start-point sum of
  the `M` transformed samples (no division by `M`);
* `mean = self.embedded.sum(axis=0) / self.n_points`; `self.embedded -= mean`;
* `cov = self.embedded.T @ self.embedded`; `_, self.vec = eigsh(cov, k=1,
  which="LM")` — the iterative eigensolver is the abstract parameter `topEig`.
`predict(Y)` raises when `self.sampler is None`, otherwise returns
`self.sampler.transform(Y) @ self.vec`, modifying no state. -/

def flattenC {α : Type} {n M : ℕ} (X : Fin n → Fin M → α) (r : Fin (n * M)) : α :=
  have hM : 0 < M := by
    rcases Nat.eq_zero_or_pos M with h0 | h0
    · have : (r : ℕ) < 0 := by simpa [h0] using r.isLt
      exact absurd this (Nat.not_lt_zero _)
    · exact h0
  X ⟨(r : ℕ) / M, by
      have hr := r.isLt
      exact Nat.div_lt_of_lt_mul (Nat.mul_comm n M ▸ hr)⟩
    ⟨(r : ℕ) % M, Nat.mod_lt _ hM⟩

theorem flat_index_lt {n M : ℕ} (i : Fin n) (m : Fin M) : (i : ℕ) * M + (m : ℕ) < n * M :=
  calc (i : ℕ) * M + (m : ℕ) < (i : ℕ) * M + M := Nat.add_lt_add_left m.isLt _
    _ = ((i : ℕ) + 1) * M := by ring
    _ ≤ n * M := Nat.mul_le_mul_right M i.isLt

/-- Per-start-point representation after `fit_transform` and `sum(axis=1)`:
the sum over the `M` simulations of start point `i`, computed through the
flattened array as the code does. -/
def lrfmEmbSum {α : Type} {n M c : ℕ} (phi : α → Fin c → ℚ) (X : Fin n → Fin M → α)
    (i : Fin n) : Fin c → ℚ :=
  fun a => ∑ m : Fin M, phi (flattenC X ⟨(i : ℕ) * M + (m : ℕ), flat_index_lt i m⟩) a

def lrfmMean {α : Type} {n M c : ℕ} (phi : α → Fin c → ℚ) (X : Fin n → Fin M → α) :
    Fin c → ℚ :=
  fun a => (∑ i, lrfmEmbSum phi X i a) / (n : ℚ)

def lrfmCentered {α : Type} {n M c : ℕ} (phi : α → Fin c → ℚ) (X : Fin n → Fin M → α)
    (i : Fin n) : Fin c → ℚ :=
  fun a => lrfmEmbSum phi X i a - lrfmMean phi X a

def lrfmCov {α : Type} {n M c : ℕ} (phi : α → Fin c → ℚ) (X : Fin n → Fin M → α)
    (a b : Fin c) : ℚ :=
  ∑ i, lrfmCentered phi X i a * lrfmCentered phi X i b

/-- Fitted model state produced by `LinearRandomFeatureManifold.fit`: the
centered embeddings and the dominant covariance eigenvector returned by the
eigensolver `topEig`.  The fitted feature map is `phiF` applied to the
flattened data set (fitted once on the union of all points). -/
def lrfmFit {α : Type} {n M c : ℕ} (phiF : (Fin (n * M) → α) → α → Fin c → ℚ)
    (topEig : (Fin c → Fin c → ℚ) → Fin c → ℚ) (X : Fin n → Fin M → α) :
    (Fin n → Fin c → ℚ) × (Fin c → ℚ) :=
  (lrfmCentered (phiF (flattenC X)) X, topEig (lrfmCov (phiF (flattenC X)) X))

/-- Mutable state of a `LinearRandomFeatureManifold` instance: the three
fields set to `None` in `__init__`.  `S` is the fitted-sampler type, `V` the
eigenvector type. -/
structure LRFMState (S V : Type) where
  sampler : Option S
  embedded : Option (List (List ℚ))
  vec : Option V

/-- `LinearRandomFeatureManifold.predict`: raises before touching any state
when `self.sampler is None`; otherwise computes
`self.sampler.transform(Y) @ self.vec`.  The returned state is the instance
state after the call. -/
def lrfmPredict {S V Y : Type} (transform : S → Y → List ℚ) (matvec : List ℚ → V → ℚ)
    (st : LRFMState S V) (ys : List Y) : Except DMError (List ℚ) × LRFMState S V :=
  match st.sampler with
  | none => (.error .notFitted, st)
  | some s =>
    match st.vec with
    | none => (.error .invalidArgument, st)
    | some v => (.ok (ys.map (fun y => matvec (transform s y) v)), st)

/-! ## `RandomLinearEmbeddingFunction` (transition_manifold.py, lines 156-172)

`__init__` calls `np.random.seed(self.seed)` — overwriting the process-wide
generator state — and then draws `A = np.random.uniform(0, 1, (in, out))`.
The global generator is modelled by a state type `σ`, the reseeding by
`seedF : ℕ → σ` and the draw by `draw : σ → ...`; the prior global state `g`
is an explicit argument of the constructor, which discards it. -/

structure RLEF (inD outD : ℕ) where
  seed : ℕ
  A : Fin inD → Fin outD → ℚ

def mkRLEF {σ : Type} (seedF : ℕ → σ) (draw : σ → (inD outD : ℕ) → Fin inD → Fin outD → ℚ)
    (_g : σ) (inD outD seed : ℕ) : RLEF inD outD :=
  { seed := seed, A := draw (seedF seed) inD outD }

/-- `RandomLinearEmbeddingFunction.evaluate`: `y = x.dot(self.A)`. -/
def RLEF.evaluate {inD outD : ℕ} (f : RLEF inD outD) (x : Fin inD → ℚ) : Fin outD → ℚ :=
  fun j => ∑ i, x i * f.A i j

/-! ## Concrete example data used by witnesses and counterexamples -/

/-- A symmetric 2×2 kernel matrix with positive entries and positive row sums. -/
def Kex2 : Fin 2 → Fin 2 → ℚ := ![![2, 1], ![1, 3]]

/-- A non-symmetric 2×2 input matrix. -/
def Mex3 : Fin 2 → Fin 2 → ℚ := ![![1, 1], ![2, 0]]

/-- A symmetric 2×2 input matrix with nonzero entries. -/
def Mex4 : Fin 2 → Fin 2 → ℚ := ![![1, 2], ![2, 3]]

/-- A symmetric 2×2 input matrix. -/
def MexSym : Fin 2 → Fin 2 → ℚ := ![![0, 1], ![1, 0]]

/-- A concrete symmetric kernel on a two-point space. -/
def kB : Bool → Bool → ℚ := fun x y => if x = y then 2 else 1

/-- A concrete burst ensemble: 2 start points, 2 samples each. -/
def XB : Fin 2 → Fin 2 → Bool := ![![true, false], ![false, false]]

/-- Concrete trajectory clouds of different sizes. -/
def cB : Fin 2 → List Bool := ![[true], [false, true]]

/-- A concrete quadrature functional (point evaluation at the origin). -/
def quadW : (ℚ → ℚ → ℚ) → ℚ := fun f => f 0 0

/-- A concrete fitted-density evaluator. -/
def kdeW : (Fin 2 → Bool) → ℚ → ℚ → ℚ := fun c x y => if c 0 then x else y

/-- A concrete reference density. -/
def rhoW : ℚ → ℚ → ℚ := fun x y => x + y + 1

/-- Concrete eigenvalues (real parts `1/2`, `1/3`): two available components. -/
def valsEx : List (ℚ × ℚ) := [(1/2, 0), (1/3, 0)]

/-- Concrete eigenvector rows matching `valsEx`. -/
def vecsEx : List (List (ℚ × ℚ)) := [[(1, 0), (2, 0)], [(3, 0), (4, 0)]]

/-! ## Helper lemmas -/

theorem sliceTM_spec {α : Type} {n M : ℕ} (X : Fin n → Fin M → α) (i : Fin n) (t : Fin M) :
    sliceTM X i t = X i t := by
  have hn : 0 < n := i.pos
  have h1 : ((i : ℕ) + (t : ℕ) * n) % n = (i : ℕ) := by
    rw [Nat.add_mul_mod_self_right, Nat.mod_eq_of_lt i.isLt]
  have h2 : ((i : ℕ) + (t : ℕ) * n) / n = (t : ℕ) := by
    rw [Nat.add_mul_div_right _ _ hn, Nat.div_eq_of_lt i.isLt, Nat.zero_add]
  simp only [sliceTM, reshapeTM]
  exact congrArg₂ X (Fin.ext h1) (Fin.ext h2)

theorem sliceTM_cloud {α : Type} {n M : ℕ} (X : Fin n → Fin M → α) (i : Fin n) :
    sliceTM X i = X i :=
  funext fun t => sliceTM_spec X i t

theorem kernelSumF_comm {α : Type} {m₁ m₂ : ℕ} (k : α → α → ℚ) (hsym : ∀ x y, k x y = k y x)
    (xs : Fin m₁ → α) (ys : Fin m₂ → α) : kernelSumF k xs ys = kernelSumF k ys xs := by
  unfold kernelSumF
  rw [Finset.sum_comm]
  exact Finset.sum_congr rfl fun t _ => Finset.sum_congr rfl fun s _ => hsym _ _

theorem kernelSumL_nil_right {α : Type} (k : α → α → ℚ) (xs : List α) :
    kernelSumL k xs [] = 0 := by
  induction xs with
  | nil => rfl
  | cons x xs ih => simp only [kernelSumL, List.map_cons, List.sum_cons] at ih ⊢; simp [ih]

theorem kernelSumL_cons_right {α : Type} (k : α → α → ℚ) (xs : List α) (y : α) (ys : List α) :
    kernelSumL k xs (y :: ys) = (xs.map (fun x => k x y)).sum + kernelSumL k xs ys := by
  induction xs with
  | nil => simp [kernelSumL]
  | cons x xs ih =>
    simp only [kernelSumL, List.map_cons, List.sum_cons] at ih ⊢
    rw [ih]; ring

theorem kernelSumL_comm {α : Type} (k : α → α → ℚ) (hsym : ∀ x y, k x y = k y x)
    (xs ys : List α) : kernelSumL k xs ys = kernelSumL k ys xs := by
  induction ys with
  | nil => rw [kernelSumL_nil_right]; simp [kernelSumL]
  | cons y ys ih =>
    rw [kernelSumL_cons_right, ih]
    simp only [kernelSumL, List.map_cons, List.sum_cons]
    congr 1
    exact congrArg List.sum (List.map_congr_left fun x _ => hsym x y)

theorem flattenC_spec {α : Type} {n M : ℕ} (X : Fin n → Fin M → α) (i : Fin n) (m : Fin M) :
    flattenC X ⟨(i : ℕ) * M + (m : ℕ), flat_index_lt i m⟩ = X i m := by
  have hM : 0 < M := m.pos
  have h1 : ((i : ℕ) * M + (m : ℕ)) / M = (i : ℕ) := by
    rw [Nat.mul_comm (i : ℕ) M, Nat.mul_add_div hM, Nat.div_eq_of_lt m.isLt, Nat.add_zero]
  have h2 : ((i : ℕ) * M + (m : ℕ)) % M = (m : ℕ) := by
    rw [Nat.add_comm, Nat.add_mul_mod_self_right, Nat.mod_eq_of_lt m.isLt]
  simp only [flattenC]
  exact congrArg₂ X (Fin.ext h1) (Fin.ext h2)

/-! ## Claims -/

/-- C10: the flattening `_reshape` interleaves the clouds so that row
`i + t*n_startpoints` of the flat array is sample `t` of start point `i`;
hence the strided slice `X[i::npoints, :]` used by the burst builders is
exactly start point `i`'s cloud, in order. -/
theorem C10_reshape_stride_recovers_clouds {α : Type} {n M : ℕ} (X : Fin n → Fin M → α) :
    (∀ (i : Fin n) (t : Fin M),
      reshapeTM X ⟨(i : ℕ) + (t : ℕ) * n, slice_index_lt i t⟩ = X i t)
    ∧ ∀ i : Fin n, sliceTM X i = X i :=
  ⟨fun i t => sliceTM_spec X i t, fun i => sliceTM_cloud X i⟩

/-- C1: for every pair `i ≠ j`, both pairwise-matrix builders produce
`D[i,j] = S_i/|C_i|² + S_j/|C_j|² - 2*K_ij/(|C_i|*|C_j|)` where `S_i` is the
kernel sum over all ordered pairs within cloud `i` and `K_ij` the sum over
the cross product; the burst builder's clouds all have the actual size `M`,
and the trajectory builder uses each cloud's own length. -/
theorem C1_mmd_pairwise_formula {α : Type} (k : α → α → ℚ) (hsym : ∀ x y, k x y = k y x)
    {n M : ℕ} (X : Fin n → Fin M → α) {n' : ℕ} (c : Fin n' → List α) :
    (∀ i j : Fin n, i ≠ j → distMatBurst k X i j
        = kernelSumF k (X i) (X i) / (M : ℚ) ^ 2 + kernelSumF k (X j) (X j) / (M : ℚ) ^ 2
          - 2 * kernelSumF k (X i) (X j) / ((M : ℚ) * (M : ℚ)))
    ∧ (∀ i j : Fin n', i ≠ j → distMatTraj k c i j
        = kernelSumL k (c i) (c i) / ((c i).length : ℚ) ^ 2
          + kernelSumL k (c j) (c j) / ((c j).length : ℚ) ^ 2
          - 2 * kernelSumL k (c i) (c j) / (((c i).length : ℚ) * ((c j).length : ℚ))) := by
  constructor
  · intro i j hne
    have hv : (i : ℕ) ≠ (j : ℕ) := fun h => hne (Fin.ext h)
    unfold distMatBurst distMatPreBurst dXXburst
    rw [sliceTM_cloud X i, sliceTM_cloud X j]
    rcases lt_or_gt_of_ne hv with h | h
    · rw [if_neg (by omega), if_pos (by omega), kernelSumF_comm k hsym (X j) (X i)]
      ring
    · rw [if_pos (by omega), if_neg (by omega)]
      ring
  · intro i j hne
    have hv : (i : ℕ) ≠ (j : ℕ) := fun h => hne (Fin.ext h)
    unfold distMatTraj distMatPreTraj dXXtraj
    rcases lt_or_gt_of_ne hv with h | h
    · rw [if_neg (by omega), if_pos (by omega), kernelSumL_comm k hsym (c j) (c i)]
      ring
    · rw [if_pos (by omega), if_neg (by omega)]
      ring

/-- C1 witness: the formula instantiated at a concrete kernel and concrete
clouds (burst clouds of size 2; trajectory clouds of sizes 1 and 2). -/
theorem C1_mmd_pairwise_formula_witness :
    (∀ x y : Bool, kB x y = kB y x)
    ∧ distMatBurst kB XB 0 1
        = kernelSumF kB (XB 0) (XB 0) / ((2 : ℕ) : ℚ) ^ 2
          + kernelSumF kB (XB 1) (XB 1) / ((2 : ℕ) : ℚ) ^ 2
          - 2 * kernelSumF kB (XB 0) (XB 1) / (((2 : ℕ) : ℚ) * ((2 : ℕ) : ℚ))
    ∧ distMatTraj kB cB 0 1
        = kernelSumL kB (cB 0) (cB 0) / ((cB 0).length : ℚ) ^ 2
          + kernelSumL kB (cB 1) (cB 1) / ((cB 1).length : ℚ) ^ 2
          - 2 * kernelSumL kB (cB 0) (cB 1) / (((cB 0).length : ℚ) * ((cB 1).length : ℚ)) := by
  have hsym : ∀ x y : Bool, kB x y = kB y x := by decide
  exact ⟨hsym, (C1_mmd_pairwise_formula kB hsym XB cB).1 0 1 (by decide),
    (C1_mmd_pairwise_formula kB hsym XB cB).2 0 1 (by decide)⟩

/-- C5: the kernel burst builder's matrix has exactly zero diagonal and is
exactly symmetric (lower triangle plus its transpose); the L2 burst builder's
matrix has zero diagonal (the integrand of a cloud against itself vanishes
identically, so exact quadrature yields 0) and is symmetric (because the
squared difference of densities is symmetric in the two clouds, even though
the code computes every entry rather than mirroring a triangle). -/
theorem C5_diag_zero_and_symmetric {α : Type} {n M : ℕ} (k : α → α → ℚ)
    (X : Fin n → Fin M → α) (quad : (ℚ → ℚ → ℚ) → ℚ)
    (kde : (Fin M → α) → ℚ → ℚ → ℚ) (rho : ℚ → ℚ → ℚ)
    (hquad : quad (fun _ _ => (0 : ℚ)) = 0) :
    (∀ i, distMatBurst k X i i = 0)
    ∧ (∀ i j, distMatBurst k X i j = distMatBurst k X j i)
    ∧ (∀ i, distMatL2 quad kde rho X i i = 0)
    ∧ (∀ i j, distMatL2 quad kde rho X i j = distMatL2 quad kde rho X j i) := by
  refine ⟨fun i => ?_, fun i j => add_comm _ _, fun i => ?_, fun i j => ?_⟩
  · unfold distMatBurst distMatPreBurst
    rw [if_neg (lt_irrefl _)]
    ring
  · unfold distMatL2 L2distanceTM
    have hz : (fun x y => (kde (sliceTM X i) x y - kde (sliceTM X i) x y) ^ 2 / rho x y)
        = fun _ _ => (0 : ℚ) := by
      funext x y
      rw [sub_self]
      simp
    rw [hz, hquad]
  · unfold distMatL2 L2distanceTM
    congr 1
    funext x y
    ring

/-- C5 witness: the invariants at a concrete ensemble, with a point-evaluation
quadrature functional (which maps the zero integrand to 0). -/
theorem C5_diag_zero_and_symmetric_witness :
    quadW (fun _ _ => (0 : ℚ)) = 0
    ∧ distMatBurst kB XB 0 0 = 0
    ∧ distMatBurst kB XB 0 1 = distMatBurst kB XB 1 0
    ∧ distMatL2 quadW kdeW rhoW XB 0 0 = 0
    ∧ distMatL2 quadW kdeW rhoW XB 0 1 = distMatL2 quadW kdeW rhoW XB 1 0 := by
  have h := C5_diag_zero_and_symmetric kB XB quadW kdeW rhoW rfl
  exact ⟨rfl, h.1 0, h.2.1 0 1, h.2.2.1 0, h.2.2.2 0 1⟩

/-- C2 counterexample: a symmetric kernel matrix with strictly positive row
sums (here fed directly into the normalization stage, with `alpha = 1`, so
`p = id`) for which the first row of the matrix produced by the code's
normalization step does **not** sum to 1: the code divides entry `(i,j)` by
column sum `j`, so its columns, not its rows, are normalized. -/
theorem C2_row_stochastic_counterexample :
    ((∀ i j : Fin 2, Kex2 i j = Kex2 j i) ∧ (∀ i : Fin 2, 0 < rowsumF Kex2 i))
    ∧ ¬ (∀ i : Fin 2, ∑ j, dmRowNorm (dmAlphaNorm id Kex2) i j = 1) := by
  refine ⟨⟨?_, ?_⟩, ?_⟩
  · intro i j
    fin_cases i <;> fin_cases j <;> simp [Kex2]
  · intro i
    fin_cases i <;> norm_num [rowsumF, Kex2, Fin.sum_univ_two]
  · intro h
    have h0 := h 0
    rw [Fin.sum_univ_two] at h0
    norm_num [dmRowNorm, dmAlphaNorm, colsumF, Kex2, Fin.sum_univ_two] at h0

/-- C2 (amended): for every symmetric entrywise-nonnegative kernel matrix `K`
with strictly positive row sums (and a density power `p` preserving
positivity), the matrix produced by the normalization step
`kernelMat / np.tile(sum(kernelMat,0),(npoints,1))` is **column**-stochastic:
every column sums to 1; equivalently, its transpose is row-stochastic. -/
theorem C2_column_stochastic {n : ℕ} (p : ℚ → ℚ) (K : Fin n → Fin n → ℚ)
    (hsym : ∀ i j, K i j = K j i) (hnonneg : ∀ i j, 0 ≤ K i j)
    (hpos : ∀ i, 0 < rowsumF K i) (hp : ∀ x, 0 < x → 0 < p x) :
    ∀ j, ∑ i, dmRowNorm (dmAlphaNorm p K) i j = 1 := by
  intro j
  have hcr : ∀ l, colsumF K l = rowsumF K l := fun l =>
    Finset.sum_congr rfl fun x _ => hsym x l
  have hc : ∀ l, 0 < colsumF K l := fun l => (hcr l) ▸ hpos l
  have hterm : ∀ i, 0 ≤ dmAlphaNorm p K i j := fun i =>
    div_nonneg (hnonneg i j) (le_of_lt (mul_pos (hp _ (hc i)) (hp _ (hc j))))
  have hex : ∃ i, 0 < K i j := by
    by_contra hno
    push_neg at hno
    have hzero : ∀ i, K i j = 0 := fun i => le_antisymm (hno i) (hnonneg i j)
    have : colsumF K j = 0 := by simp [colsumF, hzero]
    exact absurd (hc j) (by rw [this]; exact lt_irrefl 0)
  have hcol : 0 < colsumF (dmAlphaNorm p K) j := by
    obtain ⟨i0, hi0⟩ := hex
    refine Finset.sum_pos' (fun i _ => hterm i) ⟨i0, Finset.mem_univ i0, ?_⟩
    exact div_pos hi0 (mul_pos (hp _ (hc i0)) (hp _ (hc j)))
  have hsum : (∑ i, dmRowNorm (dmAlphaNorm p K) i j)
      = (∑ i, dmAlphaNorm p K i j) / colsumF (dmAlphaNorm p K) j := by
    rw [Finset.sum_div]
    rfl
  rw [hsum]
  exact div_self (ne_of_gt hcol)

/-- C2 witness: both columns of the normalized matrix built from `Kex2` with
`p = id` sum to 1. -/
theorem C2_column_stochastic_witness :
    (∑ i, dmRowNorm (dmAlphaNorm id Kex2) i 0 = 1)
    ∧ (∑ i, dmRowNorm (dmAlphaNorm id Kex2) i 1 = 1) := by
  have hsym : ∀ i j : Fin 2, Kex2 i j = Kex2 j i := by
    intro i j
    fin_cases i <;> fin_cases j <;> simp [Kex2]
  have hnonneg : ∀ i j : Fin 2, 0 ≤ Kex2 i j := by
    intro i j
    fin_cases i <;> fin_cases j <;> norm_num [Kex2]
  have hpos : ∀ i : Fin 2, 0 < rowsumF Kex2 i := by
    intro i
    fin_cases i <;> norm_num [rowsumF, Kex2, Fin.sum_univ_two]
  exact ⟨C2_column_stochastic id Kex2 hsym hnonneg hpos (fun _ hx => hx) 0,
    C2_column_stochastic id Kex2 hsym hnonneg hpos (fun _ hx => hx) 1⟩

/-- C3 counterexample: for a non-symmetric input matrix, the code's
alpha-normalization divisor is built from `np.sum(kernelMat, axis=0)` — the
**column** sums of the converted kernel matrix — not from the row sums
`rowsum[i] = sum_j K[i,j]` the claim states.  Instantiated with `e = id` for
the elementwise conversion, `p = id` (`alpha = 1 ∈ [0,1]`), `epsi = 1 > 0`. -/
theorem C3_alpha_norm_counterexample :
    dmAlphaNorm id (dmKernelStep id 1 Mex3) 0 0
      ≠ dmKernelStep id 1 Mex3 0 0
        / (id (rowsumF (dmKernelStep id 1 Mex3) 0) * id (rowsumF (dmKernelStep id 1 Mex3) 0)) := by
  norm_num [dmAlphaNorm, dmKernelStep, colsumF, rowsumF, Mex3, Fin.sum_univ_two]

/-- C3 (amended): `diffusionMaps` applies the elementwise conversion
`K[i,j] = e(-M[i,j]²/epsi)` unconditionally — the function has no flag and no
skipped branch — and then alpha-normalizes
`K'[i,j] = K[i,j] / (p(colsum[i]) * p(colsum[j]))` using the column-sum vector
of `K`, before the further normalization step; when the input matrix is
symmetric, the column sums coincide with the row sums `sum_j K[i,j]`, giving
the claimed formula. -/
theorem C3_alpha_norm_symmetric {n : ℕ} (e p : ℚ → ℚ) (epsi : ℚ) (A : Fin n → Fin n → ℚ)
    (hsym : ∀ i j, A i j = A j i) :
    ∀ i j, dmAlphaNorm p (dmKernelStep e epsi A) i j
      = dmKernelStep e epsi A i j
        / (p (rowsumF (dmKernelStep e epsi A) i) * p (rowsumF (dmKernelStep e epsi A) j)) := by
  have hKsym : ∀ i j, dmKernelStep e epsi A i j = dmKernelStep e epsi A j i := by
    intro i j
    unfold dmKernelStep
    rw [hsym i j]
  have hcr : ∀ l, colsumF (dmKernelStep e epsi A) l = rowsumF (dmKernelStep e epsi A) l :=
    fun l => Finset.sum_congr rfl fun x _ => hKsym x l
  intro i j
  unfold dmAlphaNorm
  rw [hcr i, hcr j]

/-- C3 witness: the alpha-normalization formula with row sums holds at a
concrete symmetric matrix. -/
theorem C3_alpha_norm_symmetric_witness :
    dmAlphaNorm id (dmKernelStep id 1 MexSym) 0 1
      = dmKernelStep id 1 MexSym 0 1
        / (id (rowsumF (dmKernelStep id 1 MexSym) 0) * id (rowsumF (dmKernelStep id 1 MexSym) 1)) :=
  C3_alpha_norm_symmetric id id 1 MexSym
    (by intro i j; fin_cases i <;> fin_cases j <;> simp [MexSym]) 0 1

/-- C4 counterexample: the code builds `weightMat = np.diag(sum(kernelMat,0))`
**after** `kernelMat` has been overwritten by the normalization step, so at a
concrete symmetric input (with `e = id`, `p = id`, `epsi = 1`) the weight
entry `W[0,0]` is 1 while the column sum of the alpha-normalized matrix `K'`
is `-33/325`: `W` is not `diag(colsum(K'))`. -/
theorem C4_weight_counterexample :
    dmWeight (dmAlphaNorm id (dmKernelStep id 1 Mex4)) 0 0
      ≠ colsumF (dmAlphaNorm id (dmKernelStep id 1 Mex4)) 0 := by
  norm_num [dmWeight, dmRowNorm, dmAlphaNorm, dmKernelStep, colsumF, Mex4, Fin.sum_univ_two]

/-- C4 (amended): the diagonal weight matrix is `diag` of the column sums of
the matrix produced by the preceding normalization step (not of `K'` itself);
whenever the column sums of `K'` are nonzero those normalized column sums are
all 1, so `W` is the identity matrix. -/
theorem C4_weight_is_identity {n : ℕ} (A : Fin n → Fin n → ℚ)
    (hc : ∀ j, colsumF A j ≠ 0) :
    ∀ i j, dmWeight A i j = if i = j then 1 else 0 := by
  intro i j
  unfold dmWeight
  by_cases h : i = j
  · rw [if_pos h, if_pos h]
    have hstep : colsumF (dmRowNorm A) i = (∑ l, A l i) / colsumF A i := by
      unfold colsumF dmRowNorm
      rw [Finset.sum_div]
      rfl
    rw [hstep]
    exact div_self (hc i)
  · rw [if_neg h, if_neg h]

/-- C4 witness: the weight matrix of the concrete pipeline matrix `K'` built
from `Mex4` is the identity. -/
theorem C4_weight_is_identity_witness :
    dmWeight (dmAlphaNorm id (dmKernelStep id 1 Mex4)) 0 0 = 1
    ∧ dmWeight (dmAlphaNorm id (dmKernelStep id 1 Mex4)) 0 1 = 0 := by
  have h := C4_weight_is_identity (dmAlphaNorm id (dmKernelStep id 1 Mex4)) (by
    intro j
    fin_cases j <;> norm_num [colsumF, dmAlphaNorm, dmKernelStep, Mex4, Fin.sum_univ_two])
  exact ⟨by rw [h 0 0]; rfl, by rw [h 0 1]; rfl⟩

/-- C6 counterexample: with two available components, `evaluateDiffusionMaps`
at `k = 3` does **not** fail: numpy's `[:, :k]` slice silently truncates, so
the call returns the same well-defined array as `k = 2`, while the spec's
description demands an `InvalidArgument` failure. -/
theorem C6_no_failure_counterexample :
    evalDM valsEx vecsEx 3 = evalDM valsEx vecsEx 2
    ∧ evalDM valsEx vecsEx 3 = [[1/2, 2/3], [3/2, 4/3]]
    ∧ evalDMFromSpec valsEx vecsEx 3 = .error .invalidArgument := by
  refine ⟨?_, ?_, ?_⟩
  · norm_num [evalDM, valsEx, vecsEx]
  · norm_num [evalDM, valsEx, vecsEx]
  · norm_num [evalDMFromSpec, valsEx]

/-- C6 (amended): `evaluateDiffusionMaps(eigs, k)` never fails; for every `k`
it returns the array truncated to `min(k, n_components)` columns — for
`k ≤ n_components` column `j` is the real part of eigenvector `j` scaled by
the real part of eigenvalue `j`, and for larger `k` the output equals that
for `k = n_components`. -/
theorem C6_truncated_scaled_columns {vals : List (ℚ × ℚ)} {vecs : List (List (ℚ × ℚ))}
    (hrow : ∀ row ∈ vecs, row.length = vals.length) :
    (∀ k, evalDM vals vecs k = evalDM vals vecs (min k vals.length))
    ∧ ∀ k, k ≤ vals.length → ∀ i, i < vecs.length → ∀ j, j < k →
        entryAt (evalDM vals vecs k) i j
          = ((vecs.getD i []).getD j (0, 0)).1 * (vals.getD j (0, 0)).1 := by
  constructor
  · intro k
    unfold evalDM
    refine List.map_congr_left ?_
    intro row hmem
    have hL : row.length = vals.length := hrow row hmem
    have h1 : row.take k = row.take (min k vals.length) := by
      apply List.take_eq_take.mpr
      omega
    have h2 : vals.take k = vals.take (min k vals.length) := by
      apply List.take_eq_take.mpr
      omega
    rw [h1, h2]
  · intro k hk i hi j hj
    have hjL : j < vals.length := lt_of_lt_of_le hj hk
    have hrowL : (vecs[i]).length = vals.length := hrow _ (List.getElem_mem hi)
    have hjrow : j < (vecs[i]).length := by omega
    unfold evalDM entryAt
    rw [List.getD_eq_getElem vecs [] hi]
    rw [List.getD_eq_getElem _ _ hjrow, List.getD_eq_getElem _ _ hjL]
    rw [List.getD_eq_getElem
      (List.map (fun row => ((row.take k).zip (vals.take k)).map (fun z => z.1.1 * z.2.1)) vecs)
      [] (by simpa using hi)]
    rw [List.getElem_map]
    have hzlen : j < ((((vecs[i]).take k).zip (vals.take k)).map
        (fun z => z.1.1 * z.2.1)).length := by
      simp only [List.length_map, List.length_zip, List.length_take]
      omega
    rw [List.getD_eq_getElem _ _ hzlen]
    rw [List.getElem_map, List.getElem_zip, List.getElem_take, List.getElem_take]

/-- C6 witness: the truncation identity and the scaled-column formula at the
concrete eigendecomposition `valsEx`/`vecsEx`, with `k = 1`. -/
theorem C6_truncated_scaled_columns_witness :
    (∀ row ∈ vecsEx, row.length = valsEx.length)
    ∧ evalDM valsEx vecsEx 1 = evalDM valsEx vecsEx (min 1 valsEx.length)
    ∧ entryAt (evalDM valsEx vecsEx 1) 0 0
        = ((vecsEx.getD 0 []).getD 0 (0, 0)).1 * (valsEx.getD 0 (0, 0)).1 := by
  have hrow : ∀ row ∈ vecsEx, row.length = valsEx.length := by
    intro row hmem
    fin_cases hmem <;> rfl
  exact ⟨hrow, (C6_truncated_scaled_columns hrow).1 1,
    (C6_truncated_scaled_columns hrow).2 1 (by norm_num [valsEx]) 0 (by norm_num [vecsEx]) 0
      (by norm_num)⟩

/-- C7: calling `predict` on an instance whose sampler state is still null
(no `fit` yet) fails with the not-fitted error for every input, and returns
the instance state unchanged. -/
theorem C7_predict_before_fit {S V Y : Type} (transform : S → Y → List ℚ)
    (matvec : List ℚ → V → ℚ) (st : LRFMState S V) (ys : List Y)
    (h : st.sampler = none) :
    lrfmPredict transform matvec st ys = (.error .notFitted, st) := by
  unfold lrfmPredict
  rw [h]

/-- C7 witness: the freshly initialized state (all fields `None`). -/
theorem C7_predict_before_fit_witness :
    lrfmPredict (fun _ _ => ([] : List ℚ)) (fun _ _ => (0 : ℚ))
      (⟨none, none, none⟩ : LRFMState Unit Unit) ([] : List Unit)
      = (.error .notFitted, (⟨none, none, none⟩ : LRFMState Unit Unit)) :=
  C7_predict_before_fit _ _ _ _ rfl

/-- C8: `LinearRandomFeatureManifold.fit` computes each start point's
representation as the **sum** of the `M` transformed samples (no division by
`M`), centers by subtracting the mean over start points, forms the covariance
`Σ = Eᵀ E` of the centered embeddings, and stores the eigensolver's dominant
eigenvector of `Σ` as the reaction-coordinate direction. -/
theorem C8_fit_pipeline {α : Type} {n M c : ℕ}
    (phiF : (Fin (n * M) → α) → α → Fin c → ℚ)
    (topEig : (Fin c → Fin c → ℚ) → Fin c → ℚ) (X : Fin n → Fin M → α) :
    (∀ i a, lrfmEmbSum (phiF (flattenC X)) X i a = ∑ m, phiF (flattenC X) (X i m) a)
    ∧ (∀ i a, (lrfmFit phiF topEig X).1 i a
        = (∑ m, phiF (flattenC X) (X i m) a)
          - (∑ i', ∑ m, phiF (flattenC X) (X i' m) a) / (n : ℚ))
    ∧ (∀ a b, lrfmCov (phiF (flattenC X)) X a b
        = ∑ i, (lrfmFit phiF topEig X).1 i a * (lrfmFit phiF topEig X).1 i b)
    ∧ (lrfmFit phiF topEig X).2 = topEig (lrfmCov (phiF (flattenC X)) X) := by
  have hsum : ∀ (i : Fin n) (a : Fin c),
      lrfmEmbSum (phiF (flattenC X)) X i a = ∑ m, phiF (flattenC X) (X i m) a := by
    intro i a
    unfold lrfmEmbSum
    exact Finset.sum_congr rfl fun m _ => by rw [flattenC_spec]
  refine ⟨hsum, ?_, fun a b => rfl, rfl⟩
  intro i a
  show lrfmCentered (phiF (flattenC X)) X i a = _
  unfold lrfmCentered lrfmMean
  rw [hsum]
  congr 1
  congr 1
  exact Finset.sum_congr rfl fun i' _ => hsum i' a

/-- C9: two `RandomLinearEmbeddingFunction` instances constructed with the
same `(inputdimension, outputdimension, seed)` triple draw the same
coefficient matrix `A` regardless of the prior global generator state
(the constructor reseeds the generator), and therefore `evaluate` agrees on
every input. -/
theorem C9_seed_reproducible {σ : Type} (seedF : ℕ → σ)
    (draw : σ → (inD outD : ℕ) → Fin inD → Fin outD → ℚ)
    (g₁ g₂ : σ) (inD outD seed : ℕ) :
    (mkRLEF seedF draw g₁ inD outD seed).A = (mkRLEF seedF draw g₂ inD outD seed).A
    ∧ ∀ x, (mkRLEF seedF draw g₁ inD outD seed).evaluate x
        = (mkRLEF seedF draw g₂ inD outD seed).evaluate x :=
  ⟨rfl, fun _ => rfl⟩

end Tram
